import Mathlib

/-!
Verification development for the AstraMentor repository.

Shallow embedding of the mastery-estimation engine (`src/core/scoring.py`),
the knowledge-point ledger (`src/core/learner_state.py`) and the dependency
orderer (`src/agents/knowledge_graph_agent.py`).  Python floats are modelled
as exact rationals, Python `datetime` differences as an optional integer
number of elapsed days, and Python's insertion-ordered `dict` as an
insertion-ordered association list (or, for the integer-valued in-degree
table of the orderer, as a total function updated pointwise).
-/

namespace AstraMentor

/-! ### Embedding of `src/core/scoring.py` -/

/-- `TaskDifficulty` enum from `scoring.py`. -/
inductive TaskDifficulty
  | concept
  | basic_code
  | advanced

/-- Configured learning parameters from `src/config.py` (`LearningConfig`):
`learning_rate = 0.3`. -/
def learning_rate_default : ℚ := 0.3

/-- `LearningConfig.difficulty_concept = 0.4`. -/
def difficulty_concept : ℚ := 0.4

/-- `LearningConfig.difficulty_basic_code = 0.7`. -/
def difficulty_basic_code : ℚ := 0.7

/-- `LearningConfig.difficulty_advanced = 1.0`. -/
def difficulty_advanced : ℚ := 1.0

/-- `ScoringEngine.get_difficulty_cap`: the Python body is
`caps.get(difficulty, self.config.difficulty_basic_code)` on a dict keyed by
the three enum members.  The argument is `Option TaskDifficulty`, where
`none` models a value that is not one of the enum keys, for which the dict
lookup falls back to the `basic_code` default. -/
def get_difficulty_cap : Option TaskDifficulty → ℚ
  | some TaskDifficulty.concept => difficulty_concept
  | some TaskDifficulty.basic_code => difficulty_basic_code
  | some TaskDifficulty.advanced => difficulty_advanced
  | none => difficulty_basic_code

/-- `ScoringEngine.get_adaptive_learning_rate`: the staircase over the four
stages, with the `stage_learning_rates` table from `__init__` inlined (the
computed stage is always one of the keys 0..3, so the `dict.get` default
never fires). -/
def get_adaptive_learning_rate (mastery : ℚ) : ℚ :=
  if mastery < 0.2 then 0.40
  else if mastery < 0.5 then 0.35
  else if mastery < 0.8 then 0.25
  else 0.15

/-- `ScoringEngine.calculate_time_decay`.  The Python code receives an
optional `datetime` and computes `(datetime.now() - last_practice_time).days`;
the embedding takes that integer day count directly (`none` models
`last_practice_time is None`).  Constants from `__init__`:
`forgetting_start_days = 7`, `forgetting_rate = 0.02`,
`forgetting_floor = 0.1`. -/
def calculate_time_decay : Option ℤ → ℚ
  | none => 1.0
  | some days =>
      if days ≤ 7 then 1.0
      else max 0.1 (1.0 - 0.02 * ((days : ℚ) - 7))

/-- `ScoringEngine.calculate_tolerance_factor`, with the threshold constants
from `__init__` (`slip_threshold = 0.7`, `guess_threshold = 0.3`,
`slip_protection = 0.5`, `guess_dampening = 0.6`).  The Python local
`is_improvement` is computed but never used, so it is omitted. -/
def calculate_tolerance_factor (old_mastery task_score : ℚ) : ℚ :=
  if 0.7 ≤ old_mastery ∧ task_score < 0.5 then 0.5
  else if old_mastery ≤ 0.3 ∧ task_score > 0.8 then 0.6
  else 1.0

/-- `max(0.0, min(1.0, x))`, the clamp used throughout `scoring.py`. -/
def clamp01 (x : ℚ) : ℚ := max 0 (min 1 x)

/-- Round-half-to-even on an exact rational, the rounding mode of Python's
built-in `round`. -/
def roundHalfEven (x : ℚ) : ℤ :=
  if x - (⌊x⌋ : ℚ) < 1/2 then ⌊x⌋
  else if 1/2 < x - (⌊x⌋ : ℚ) then ⌊x⌋ + 1
  else if ⌊x⌋ % 2 = 0 then ⌊x⌋ else ⌊x⌋ + 1

/-- Python `round(x, 4)`: round to four decimal digits. -/
def round4 (x : ℚ) : ℚ := (roundHalfEven (x * 10000) : ℚ) / 10000

/-- `ScoringResult` dataclass from `scoring.py`. -/
structure ScoringResult where
  task_score : ℚ
  old_mastery : ℚ
  new_mastery : ℚ
  difficulty : Option TaskDifficulty
  difficulty_cap : ℚ
  learning_rate : ℚ
  time_decay : ℚ
  tolerance_factor : ℚ
  algorithm : String

/-- `ScoringEngine.calculate_new_mastery`.  `base_learning_rate` is the
engine field set in `__init__` (default `learning_rate_default = 0.3`);
`last_practice_days` stands for the elapsed-day count derived from the
optional `last_practice_time` argument.  In the enhanced branch the two arms
of the Python `if delta < 0` both compute `delta * tolerance_factor`, which
is mirrored verbatim. -/
def calculate_new_mastery (base_learning_rate old_mastery task_score : ℚ)
    (difficulty : Option TaskDifficulty) (last_practice_days : Option ℤ)
    (use_enhanced : Bool) : ScoringResult :=
  let old_mastery := clamp01 old_mastery
  let task_score := clamp01 task_score
  let w_cap := get_difficulty_cap difficulty
  if use_enhanced then
    let time_decay := calculate_time_decay last_practice_days
    let decayed_mastery := old_mastery * time_decay
    let learning_rate := get_adaptive_learning_rate decayed_mastery
    let tolerance_factor := calculate_tolerance_factor old_mastery task_score
    let target := task_score * w_cap
    let delta := target - decayed_mastery
    let adjusted_delta :=
      if delta < 0 then delta * tolerance_factor else delta * tolerance_factor
    let new_mastery := decayed_mastery + learning_rate * adjusted_delta
    { task_score := task_score
      old_mastery := old_mastery
      new_mastery := round4 (clamp01 new_mastery)
      difficulty := difficulty
      difficulty_cap := w_cap
      learning_rate := learning_rate
      time_decay := time_decay
      tolerance_factor := tolerance_factor
      algorithm := "enhanced_ema" }
  else
    let learning_rate := base_learning_rate
    let target := task_score * w_cap
    let new_mastery := old_mastery + learning_rate * (target - old_mastery)
    { task_score := task_score
      old_mastery := old_mastery
      new_mastery := round4 (clamp01 new_mastery)
      difficulty := difficulty
      difficulty_cap := w_cap
      learning_rate := learning_rate
      time_decay := 1.0
      tolerance_factor := 1.0
      algorithm := "basic_ema" }

/-- Iterated enhanced updates at a fixed difficulty tier and elapsed-days
value: fold the enhanced `calculate_new_mastery` over a list of task
scores, starting from mastery `a`. -/
def fold_enhanced (blr : ℚ) (t : TaskDifficulty) (days : Option ℤ)
    (a : ℚ) (scores : List ℚ) : ℚ :=
  scores.foldl
    (fun m s => (calculate_new_mastery blr m s (some t) days true).new_mastery) a

/-! #### Specification-side restatement of the enhanced update (claim C1)

The following `spec_*` definitions transcribe the claim's formula
`new_mastery = round(clamp(A_d + alpha(A_d) * (S_c * cap(tier) - A_d) *
gamma(A0_c, S_c), 0, 1), 4)` word for word, to be compared with the
embedding of the source. -/

/-- Claim C1's staircase `alpha`: 0.40 below 0.2, 0.35 below 0.5, 0.25 below
0.8, 0.15 at or above 0.8, keyed by the decayed mastery. -/
def spec_alpha (m : ℚ) : ℚ :=
  if m < 0.2 then 0.40
  else if m < 0.5 then 0.35
  else if m < 0.8 then 0.25
  else 0.15

/-- Claim C1's `beta`: 1.0 when `d` is null or `d ≤ 7`, otherwise
`max(0.1, 1 - 0.02 * (d - 7))`. -/
def spec_beta : Option ℤ → ℚ
  | none => 1.0
  | some d => if d ≤ 7 then 1.0 else max 0.1 (1.0 - 0.02 * ((d : ℚ) - 7))

/-- Claim C1's `cap`: CONCEPT = 0.4, BASIC_CODE = 0.7, ADVANCED = 1.0. -/
def spec_cap : TaskDifficulty → ℚ
  | TaskDifficulty.concept => 0.4
  | TaskDifficulty.basic_code => 0.7
  | TaskDifficulty.advanced => 1.0

/-- Claim C1's `gamma`: 0.5 if `A0_c ≥ 0.7` and `S_c < 0.5`, else 0.6 if
`A0_c ≤ 0.3` and `S_c > 0.8`, else 1.0. -/
def spec_gamma (a s : ℚ) : ℚ :=
  if 0.7 ≤ a ∧ s < 0.5 then 0.5
  else if a ≤ 0.3 ∧ s > 0.8 then 0.6
  else 1.0

/-- Claim C1's formula for the enhanced-mode result, assembled from the
`spec_*` pieces above. -/
def spec_new_mastery (A0 S : ℚ) (tier : TaskDifficulty) (d : Option ℤ) : ℚ :=
  let A0c := clamp01 A0
  let Sc := clamp01 S
  let Ad := A0c * spec_beta d
  round4 (clamp01 (Ad + spec_alpha Ad * (Sc * spec_cap tier - Ad) * spec_gamma A0c Sc))

/-! ### Embedding of `src/core/learner_state.py`

Timestamps (`datetime.now().isoformat()`) are modelled by passing the
current timestamp string explicitly to each mutating operation; file
persistence (`_auto_save` / `save` / `load`) is I/O-only and touches no
in-memory field, so it is omitted. -/

/-- One entry of a `KnowledgePoint.history` list, as appended by
`KnowledgePoint.update_mastery`. -/
structure HistoryEntry where
  timestamp : String
  old_mastery : ℚ
  new_mastery : ℚ
  score : ℚ
  feedback : String

/-- `KnowledgePoint` dataclass from `learner_state.py`. -/
structure KnowledgePoint where
  name : String
  actual_mastery : ℚ
  target_mastery : ℚ
  note : String
  history : List HistoryEntry
  created_at : String
  updated_at : String

/-- `KnowledgePoint.update_mastery`: append a history record, store the new
mastery value as given (no clamping in this method), refresh `updated_at`. -/
def KnowledgePoint.update_mastery_kp (kp : KnowledgePoint)
    (new_mastery score : ℚ) (feedback now : String) : KnowledgePoint :=
  { kp with
    history := kp.history ++
      [{ timestamp := now
         old_mastery := kp.actual_mastery
         new_mastery := new_mastery
         score := score
         feedback := feedback }]
    actual_mastery := new_mastery
    updated_at := now }

/-- `LearnerState`: the in-memory `knowledge_points` dict (string key to
`KnowledgePoint`), modelled as an insertion-ordered association list. -/
structure LearnerState where
  knowledge_points : List (String × KnowledgePoint)

/-- `self.knowledge_points.get(name)`: first association for `name`. -/
def LearnerState.lookupKP (st : LearnerState) (name : String) :
    Option KnowledgePoint :=
  (st.knowledge_points.find? (fun p => p.1 = name)).map (fun p => p.2)

/-- `LearnerState.add_knowledge_point` (upsert).  If the name is absent a
fresh point is appended with `actual_mastery = initial_mastery`; if present,
the existing point's `target_mastery` is overwritten and its `note` is
overwritten only when the `note` argument is truthy (non-empty).  The Python
method also returns `self.knowledge_points[name]`; the returned pair's
second component is the state, first the stored point is recovered with
`lookupKP`. -/
def LearnerState.add_knowledge_point (st : LearnerState) (name : String)
    (target_mastery : ℚ) (note : String) (initial_mastery : ℚ)
    (now : String) : LearnerState :=
  if (st.knowledge_points.find? (fun p => p.1 = name)).isNone then
    { knowledge_points := st.knowledge_points ++
        [(name,
          { name := name
            actual_mastery := initial_mastery
            target_mastery := target_mastery
            note := note
            history := []
            created_at := now
            updated_at := now })] }
  else
    { knowledge_points := st.knowledge_points.map (fun p =>
        if p.1 = name then
          (p.1,
           { p.2 with
             target_mastery := target_mastery
             note := if note = "" then p.2.note else note })
        else p) }

/-- `LearnerState.update_mastery`: returns the updated state together with
the Python boolean result (`false` and the unchanged state when the name is
unknown). -/
def LearnerState.update_mastery_st (st : LearnerState) (name : String)
    (new_mastery score : ℚ) (feedback now : String) : LearnerState × Bool :=
  match st.knowledge_points.find? (fun p => p.1 = name) with
  | none => (st, false)
  | some _ =>
      ({ knowledge_points := st.knowledge_points.map (fun p =>
          if p.1 = name then
            (p.1, p.2.update_mastery_kp new_mastery score feedback now)
          else p) },
       true)

/-- The empty ledger (`LearnerState()` with no state file). -/
def LearnerState.empty : LearnerState := { knowledge_points := [] }

/-- All mastery values stored in the ledger lie in `[0, 1]`. -/
def InBoundsLedger (st : LearnerState) : Prop :=
  ∀ p ∈ st.knowledge_points, 0 ≤ p.2.actual_mastery ∧ p.2.actual_mastery ≤ 1

/-- A one-point ledger used as a concrete instance in witnesses: the empty
ledger after `add_knowledge_point("x", 0.8, "", 0.0)` at time `"t0"`. -/
def sampleLedger : LearnerState :=
  LearnerState.empty.add_knowledge_point "x" 0.8 "" 0 "t0"

/-- The knowledge point stored in `sampleLedger` under `"x"`. -/
def sampleKP : KnowledgePoint :=
  { name := "x"
    actual_mastery := 0
    target_mastery := 0.8
    note := ""
    history := []
    created_at := "t0"
    updated_at := "t0" }

/-! ### Embedding of `src/agents/knowledge_graph_agent.py`,
`KnowledgeGraphAgent.get_learning_path`

Nodes are opaque string ids; a graph is a node-id list plus an edge list of
`(source, target)` pairs.  The Python `in_degree` dict has one key per
distinct node id in insertion order (`dedupFirst nodes`) and integer values,
modelled as a total function `String → ℤ` (reads and writes only ever touch
declared keys); the `defaultdict(list)` adjacency for a source `u` is the
list of targets of the edges with source `u`, in edge order.  Building
`in_degree` performs `in_degree[edge["target"]] += 1`, which raises
`KeyError` when a target is not a declared node id; that exceptional exit is
modelled by the `Except.error` branch, checked up front.  Inside the Kahn
loop every decremented key is an edge target, already verified present, so
the loop itself cannot raise. -/

/-- Distinct node ids in first-occurrence (insertion) order: the key set of
the Python `in_degree` dict comprehension. -/
def dedupFirstAux : List String → List String → List String
  | _, [] => []
  | seen, v :: rest =>
      if v ∈ seen then dedupFirstAux seen rest
      else v :: dedupFirstAux (v :: seen) rest

/-- Keys of `{node["id"]: 0 for node in nodes}` in insertion order. -/
def dedupFirst (l : List String) : List String := dedupFirstAux [] l

/-- `graph[u]` of the Python adjacency `defaultdict`: targets of the edges
whose source is `u`, in edge order. -/
def adjTargets (edges : List (String × String)) (u : String) : List String :=
  (edges.filter (fun e => e.1 = u)).map (fun e => e.2)

/-- Initial in-degree of `v`: the number of edges whose target is `v`. -/
def in0 (edges : List (String × String)) (v : String) : ℤ :=
  (edges.countP (fun e => e.2 = v) : ℤ)

/-- One neighbor visit of the Kahn inner loop:
`in_degree[neighbor] -= 1; if in_degree[neighbor] == 0: queue.append(neighbor)`.
The accumulator carries the in-degree table and the neighbors enqueued so
far during this visit of the popped node. -/
def stepNeighbor (acc : (String → ℤ) × List String) (v : String) :
    (String → ℤ) × List String :=
  let newVal := acc.1 v - 1
  (fun w => if w = v then newVal else acc.1 w,
   if newVal = 0 then acc.2 ++ [v] else acc.2)

/-- The `while queue:` loop of `get_learning_path`.  Python's loop always
terminates because every node enters the queue at most once; the `fuel`
argument (instantiated with the number of declared nodes, an upper bound on
the number of pops) makes that termination structural. -/
def kahnRun (adj : String → List String) :
    ℕ → List String → (String → ℤ) → List String → List String
  | 0, _, _, path => path
  | fuel + 1, queue, f, path =>
      match queue with
      | [] => path
      | u :: rest =>
          let res := (adj u).foldl stepNeighbor (f, [])
          kahnRun adj fuel (rest ++ res.2) res.1 (path ++ [u])

/-- `KnowledgeGraphAgent.get_learning_path` on a graph given as a node-id
list and an edge list.  The `Except.error` branch models the `KeyError`
raised while building `in_degree` when an edge target is not a declared
node; otherwise the Kahn loop runs to completion and its path is returned
(the Python function returns whatever path was accumulated, with no cycle
or length check). -/
def get_learning_path (nodes : List String)
    (edges : List (String × String)) : Except String (List String) :=
  let keys := dedupFirst nodes
  if ∀ e ∈ edges, e.2 ∈ keys then
    Except.ok (kahnRun (adjTargets edges) keys.length
      (keys.filter (fun v => in0 edges v = 0)) (in0 edges) [])
  else
    Except.error "KeyError: edge target is not a declared node id"

/-- Number of edges into `v` whose source has already been appended to
`path`: the amount by which the Kahn loop has decremented `v`'s in-degree
after processing the nodes of `path`. -/
def outDeg (edges : List (String × String)) (path : List String)
    (v : String) : ℕ :=
  edges.countP (fun e => e.2 = v ∧ e.1 ∈ path)

/-- The edge relation has no directed cycle: no node reaches itself through
a nonempty chain of edges. -/
def Acyclic (edges : List (String × String)) : Prop :=
  ∀ v, ¬ Relation.TransGen (fun a b => (a, b) ∈ edges) v v

/-- Invariant of the Kahn loop of `get_learning_path`, for a graph whose
declared node ids are `keys`: the in-degree table tracks the number of
edges from not-yet-processed sources, processed and queued nodes are
distinct declared nodes, unseen nodes still have positive in-degree, seen
nodes have exhausted theirs, and the accumulated path respects every edge
whose target it already contains. -/
structure KahnInv (edges : List (String × String)) (keys : List String)
    (queue : List String) (f : String → ℤ) (path : List String) : Prop where
  count_eq : ∀ v, f v = in0 edges v - (outDeg edges path v : ℤ)
  nodup : (path ++ queue).Nodup
  mem_keys : ∀ v ∈ path ++ queue, v ∈ keys
  pending_pos : ∀ v ∈ keys, v ∉ path → v ∉ queue → 1 ≤ f v
  queue_zero : ∀ v ∈ queue, f v = 0
  path_zero : ∀ v ∈ path, f v = 0
  sound : ∀ e ∈ edges, e.2 ∈ path → [e.1, e.2].Sublist path

/-! ### Arithmetic lemmas about clamping and rounding -/

theorem clamp01_nonneg (x : ℚ) : 0 ≤ clamp01 x := le_max_left _ _

theorem clamp01_le_one (x : ℚ) : clamp01 x ≤ 1 :=
  max_le (by norm_num) (min_le_left _ _)

theorem clamp01_le {x c : ℚ} (h0 : 0 ≤ c) (h : x ≤ c) : clamp01 x ≤ c :=
  max_le h0 ((min_le_right _ _).trans h)

theorem clamp01_eq_of_mem {x : ℚ} (h0 : 0 ≤ x) (h1 : x ≤ 1) : clamp01 x = x := by
  unfold clamp01
  rw [min_eq_right h1, max_eq_right h0]

theorem clamp01_idem (x : ℚ) : clamp01 (clamp01 x) = clamp01 x :=
  clamp01_eq_of_mem (clamp01_nonneg x) (clamp01_le_one x)

theorem roundHalfEven_le_int {x : ℚ} {n : ℤ} (h : x ≤ (n : ℚ)) :
    roundHalfEven x ≤ n := by
  have hfl : ⌊x⌋ ≤ n := by
    have := Int.floor_le_floor h
    rwa [Int.floor_intCast] at this
  unfold roundHalfEven
  split_ifs with h1 h2 h3
  · exact hfl
  all_goals try exact hfl
  all_goals
    rcases eq_or_lt_of_le hfl with heq | hlt
    · exfalso
      have hx : (⌊x⌋ : ℚ) = (n : ℚ) := by exact_mod_cast heq
      have h1' : (1 : ℚ)/2 ≤ x - (⌊x⌋ : ℚ) := le_of_not_lt h1
      rw [hx] at h1'
      linarith
    · omega

theorem int_le_roundHalfEven {x : ℚ} {n : ℤ} (h : (n : ℚ) ≤ x) :
    n ≤ roundHalfEven x := by
  have hfl : n ≤ ⌊x⌋ := by
    have := Int.floor_le_floor h
    rwa [Int.floor_intCast] at this
  unfold roundHalfEven
  split_ifs <;> omega

theorem round4_le {x : ℚ} {n : ℤ} (h : x * 10000 ≤ (n : ℚ)) :
    round4 x ≤ (n : ℚ) / 10000 := by
  unfold round4
  have h1 : roundHalfEven (x * 10000) ≤ n := roundHalfEven_le_int h
  have h2 : ((roundHalfEven (x * 10000) : ℤ) : ℚ) ≤ (n : ℚ) := by exact_mod_cast h1
  linarith

theorem le_round4 {x : ℚ} {n : ℤ} (h : (n : ℚ) ≤ x * 10000) :
    (n : ℚ) / 10000 ≤ round4 x := by
  unfold round4
  have h1 : n ≤ roundHalfEven (x * 10000) := int_le_roundHalfEven h
  have h2 : (n : ℚ) ≤ ((roundHalfEven (x * 10000) : ℤ) : ℚ) := by exact_mod_cast h1
  linarith

theorem round4_clamp01_mem (y : ℚ) :
    0 ≤ round4 (clamp01 y) ∧ round4 (clamp01 y) ≤ 1 := by
  constructor
  · have h0 : ((0 : ℤ) : ℚ) ≤ clamp01 y * 10000 := by
      have := clamp01_nonneg y
      push_cast
      nlinarith
    have h := le_round4 h0
    norm_num at h
    exact h
  · have h0 : clamp01 y * 10000 ≤ ((10000 : ℤ) : ℚ) := by
      have := clamp01_le_one y
      push_cast
      nlinarith
    have h := round4_le h0
    norm_num at h
    exact h

/-! ### Bounds on the factors of the enhanced update -/

theorem time_decay_mem (d : Option ℤ) :
    0 ≤ calculate_time_decay d ∧ calculate_time_decay d ≤ 1 := by
  cases d with
  | none => norm_num [calculate_time_decay]
  | some d =>
    simp only [calculate_time_decay]
    split_ifs with h
    · norm_num
    · constructor
      · have h1 : (0.1 : ℚ) ≤ max 0.1 (1.0 - 0.02 * ((d : ℚ) - 7)) := le_max_left _ _
        linarith
      · apply max_le
        · norm_num
        · have hd : (8 : ℚ) ≤ (d : ℚ) := by exact_mod_cast (by omega : (8 : ℤ) ≤ d)
          nlinarith

theorem adapt_rate_mem (m : ℚ) :
    0 < get_adaptive_learning_rate m ∧ get_adaptive_learning_rate m ≤ 1 := by
  unfold get_adaptive_learning_rate
  split_ifs <;> norm_num

theorem tolerance_mem (a s : ℚ) :
    0 < calculate_tolerance_factor a s ∧ calculate_tolerance_factor a s ≤ 1 := by
  unfold calculate_tolerance_factor
  split_ifs <;> norm_num

theorem cap_mem (t : TaskDifficulty) :
    0 ≤ get_difficulty_cap (some t) ∧ get_difficulty_cap (some t) ≤ 1 := by
  cases t <;>
    norm_num [get_difficulty_cap, difficulty_concept, difficulty_basic_code,
      difficulty_advanced]

theorem cap_times_10000_int (t : TaskDifficulty) :
    ∃ m : ℤ, (m : ℚ) = get_difficulty_cap (some t) * 10000 := by
  cases t
  · exact ⟨4000, by norm_num [get_difficulty_cap, difficulty_concept]⟩
  · exact ⟨7000, by norm_num [get_difficulty_cap, difficulty_basic_code]⟩
  · exact ⟨10000, by norm_num [get_difficulty_cap, difficulty_advanced]⟩

theorem round4_clamp01_le_cap {x : ℚ} {t : TaskDifficulty}
    (hx : x ≤ get_difficulty_cap (some t)) :
    round4 (clamp01 x) ≤ get_difficulty_cap (some t) := by
  obtain ⟨hcap0, _⟩ := cap_mem t
  obtain ⟨m, hm⟩ := cap_times_10000_int t
  have h1 : clamp01 x ≤ get_difficulty_cap (some t) := clamp01_le hcap0 hx
  have h2 : clamp01 x * 10000 ≤ (m : ℚ) := by rw [hm]; nlinarith
  have h3 := round4_le h2
  have h4 : (m : ℚ) / 10000 = get_difficulty_cap (some t) := by rw [hm]; ring
  rwa [h4] at h3

/-- A single enhanced update started at a mastery below the tier ceiling
stays below the ceiling, including after clamping and rounding. -/
theorem enhanced_step_le_cap (blr a s : ℚ) (t : TaskDifficulty) (days : Option ℤ)
    (h : a ≤ get_difficulty_cap (some t)) :
    (calculate_new_mastery blr a s (some t) days true).new_mastery
      ≤ get_difficulty_cap (some t) := by
  obtain ⟨hcap0, hcap1⟩ := cap_mem t
  simp only [calculate_new_mastery, ite_self, if_true]
  apply round4_clamp01_le_cap
  have hA0 : 0 ≤ clamp01 a := clamp01_nonneg a
  have hAcap : clamp01 a ≤ get_difficulty_cap (some t) := clamp01_le hcap0 h
  have hS0 : 0 ≤ clamp01 s := clamp01_nonneg s
  have hS1 : clamp01 s ≤ 1 := clamp01_le_one s
  obtain ⟨hb0, hb1⟩ := time_decay_mem days
  obtain ⟨ha0, ha1⟩ := adapt_rate_mem (clamp01 a * calculate_time_decay days)
  obtain ⟨hg0, hg1⟩ := tolerance_mem (clamp01 a) (clamp01 s)
  have hAb : clamp01 a * calculate_time_decay days ≤ get_difficulty_cap (some t) :=
    le_trans (mul_le_of_le_one_right hA0 hb1) hAcap
  have hScap : clamp01 s * get_difficulty_cap (some t) ≤ get_difficulty_cap (some t) :=
    mul_le_of_le_one_left hcap0 hS1
  have hag1 : get_adaptive_learning_rate (clamp01 a * calculate_time_decay days) *
      calculate_tolerance_factor (clamp01 a) (clamp01 s) ≤ 1 :=
    mul_le_one₀ ha1 hg0.le hg1
  nlinarith [mul_nonneg (sub_nonneg.mpr hag1) (sub_nonneg.mpr hAb),
    mul_nonneg (mul_nonneg ha0.le hg0.le) (sub_nonneg.mpr hScap)]

/-! ### Claim theorems for the scoring engine -/

/-- Claim C1: for every old mastery `A0`, task score `S`, difficulty tier
and elapsed-days value `d`, the enhanced-mode update of
`calculate_new_mastery` returns exactly the claim's formula
`round(clamp(A_d + alpha(A_d) * (S_c * cap(tier) - A_d) * gamma(A0_c, S_c),
0, 1), 4)`, with `A_d = A0_c * beta(d)` and the clamped inputs `A0_c`,
`S_c`. -/
theorem claim_C1_enhanced_update_formula (A0 S : ℚ) (tier : TaskDifficulty)
    (d : Option ℤ) :
    (calculate_new_mastery learning_rate_default A0 S (some tier) d true).new_mastery
      = spec_new_mastery A0 S tier d := by
  have hcap : spec_cap tier = get_difficulty_cap (some tier) := by cases tier <;> rfl
  have halpha : ∀ m, spec_alpha m = get_adaptive_learning_rate m := fun m => rfl
  have hbeta : spec_beta d = calculate_time_decay d := rfl
  have hgamma : ∀ a s, spec_gamma a s = calculate_tolerance_factor a s := fun a s => rfl
  simp only [calculate_new_mastery, spec_new_mastery, ite_self, if_true, hcap,
    halpha, hbeta, hgamma]
  ring_nf

/-- Claim C4, counterexample: at `A0 = 0.9`, `S = 0.3`, tier ADVANCED, no
decay, the legacy mode (`use_enhanced = false`, base rate 0.3) moves mastery
by `-0.18` while the enhanced mode moves it by `-0.045`; neither delta is
half of the other, so the claimed "legacy-mode delta vs enhanced-mode delta
ratio equals 0.5" fails on the code. -/
theorem claim_C4_counterexample :
    (calculate_new_mastery learning_rate_default 0.9 0.3
        (some TaskDifficulty.advanced) none false).new_mastery - 0.9 = -0.18 ∧
    (calculate_new_mastery learning_rate_default 0.9 0.3
        (some TaskDifficulty.advanced) none true).new_mastery - 0.9 = -0.045 ∧
    ¬ ((-0.18 : ℚ) = 0.5 * (-0.045) ∨ (-0.045 : ℚ) = 0.5 * (-0.18)) := by
  refine ⟨?_, ?_, ?_⟩ <;>
    norm_num [calculate_new_mastery, learning_rate_default, clamp01,
      get_difficulty_cap, difficulty_advanced, calculate_time_decay,
      get_adaptive_learning_rate, calculate_tolerance_factor, round4,
      roundHalfEven]

/-- Claim C4, amended: at `A0 = 0.9`, tier ADVANCED, `S = 0.3`, no decay,
the enhanced update's downward delta is exactly half of the delta the same
enhanced computation produces with the tolerance factor replaced by 1; the
actual legacy mode (`use_enhanced = false`), which also switches to the base
learning rate 0.3, produces a delta 4 times the enhanced one, not a 0.5
ratio. -/
theorem claim_C4_slip_protection_amended :
    (calculate_new_mastery learning_rate_default 0.9 0.3
        (some TaskDifficulty.advanced) none true).new_mastery - 0.9
      = 0.5 * (round4 (clamp01 (0.9 + get_adaptive_learning_rate 0.9 *
          ((0.3 * get_difficulty_cap (some TaskDifficulty.advanced) - 0.9) * 1)))
          - 0.9) ∧
    (calculate_new_mastery learning_rate_default 0.9 0.3
        (some TaskDifficulty.advanced) none false).new_mastery - 0.9
      = 4 * ((calculate_new_mastery learning_rate_default 0.9 0.3
          (some TaskDifficulty.advanced) none true).new_mastery - 0.9) := by
  constructor <;>
    norm_num [calculate_new_mastery, learning_rate_default, clamp01,
      get_difficulty_cap, difficulty_advanced, calculate_time_decay,
      get_adaptive_learning_rate, calculate_tolerance_factor, round4,
      roundHalfEven]

/-- Claim C5: `calculate_new_mastery` is total over all rational inputs
(the embedding is a total function); its result is always in `[0, 1]`;
out-of-range numeric inputs are silently clamped to `[0, 1]` before use
(the result coincides with the result on the clamped inputs); and an
unrecognized difficulty tier falls back to the basic-code default cap
`0.7`. -/
theorem claim_C5_totality_and_clamping :
    (∀ blr a s dd days e, 0 ≤ (calculate_new_mastery blr a s dd days e).new_mastery ∧
        (calculate_new_mastery blr a s dd days e).new_mastery ≤ 1) ∧
    (∀ blr a s dd days e, calculate_new_mastery blr a s dd days e =
        calculate_new_mastery blr (clamp01 a) (clamp01 s) dd days e) ∧
    get_difficulty_cap none = 0.7 := by
  refine ⟨?_, ?_, rfl⟩
  · intro blr a s dd days e
    cases e <;>
      simp only [calculate_new_mastery, Bool.false_eq_true, if_false, if_true] <;>
      exact round4_clamp01_mem _
  · intro blr a s dd days e
    simp only [calculate_new_mastery, clamp01_idem]

/-- Claim C6: starting from any mastery at or below the tier ceiling, a
single enhanced update stays at or below the ceiling (including after
rounding), and therefore repeatedly applying the enhanced update with any
sequence of task scores never exceeds the ceiling. -/
theorem claim_C6_ceiling_dominance :
    (∀ blr a s t days, a ≤ get_difficulty_cap (some t) →
      (calculate_new_mastery blr a s (some t) days true).new_mastery
        ≤ get_difficulty_cap (some t)) ∧
    (∀ blr a t days scores, a ≤ get_difficulty_cap (some t) →
      fold_enhanced blr t days a scores ≤ get_difficulty_cap (some t)) := by
  constructor
  · exact fun blr a s t days h => enhanced_step_le_cap blr a s t days h
  · intro blr a t days scores h
    induction scores generalizing a with
    | nil => simpa [fold_enhanced] using h
    | cons s rest ih =>
      have h1 := enhanced_step_le_cap blr a s t days h
      simpa [fold_enhanced] using ih _ h1

/-- Witness for claim C6 at a concrete input: one update from mastery 0 with
score 1 at tier ADVANCED stays at or below the ceiling. -/
theorem claim_C6_ceiling_dominance_witness :
    (calculate_new_mastery 0.3 0 1 (some TaskDifficulty.advanced) none true).new_mastery
      ≤ get_difficulty_cap (some TaskDifficulty.advanced) :=
  claim_C6_ceiling_dominance.1 0.3 0 1 TaskDifficulty.advanced none
    (by norm_num [get_difficulty_cap, difficulty_advanced])

/-! ### Claim theorems for the knowledge-point ledger -/

/-- Replacing the values of all `name`-keyed associations commutes with the
first-match lookup for `name`. -/
theorem find_map_if (l : List (String × KnowledgePoint)) (name : String)
    (g : KnowledgePoint → KnowledgePoint) :
    (l.map (fun p => if p.1 = name then (p.1, g p.2) else p)).find?
        (fun p => p.1 = name)
      = (l.find? (fun p => p.1 = name)).map (fun p => (p.1, g p.2)) := by
  induction l with
  | nil => rfl
  | cons p rest ih =>
    by_cases h : p.1 = name
    · simp [List.find?_cons, h]
    · simp [List.find?_cons, h, ih]

/-- Replacing the values of all `name`-keyed associations leaves the
first-match lookup of any other key unchanged. -/
theorem find_map_if_ne (l : List (String × KnowledgePoint)) (name other : String)
    (g : KnowledgePoint → KnowledgePoint) (hne : other ≠ name) :
    (l.map (fun p => if p.1 = name then (p.1, g p.2) else p)).find?
        (fun p => p.1 = other)
      = l.find? (fun p => p.1 = other) := by
  induction l with
  | nil => rfl
  | cons p rest ih =>
    by_cases h : p.1 = name
    · have h2 : p.1 ≠ other := by rw [h]; exact fun hx => hne hx.symm
      simp [List.find?_cons, h, h2, hne.symm, ih]
    · by_cases h3 : p.1 = other
      · simp [List.find?_cons, h, h3, hne]
      · simp [List.find?_cons, h, h3, hne, ih]

/-- Claim C8: for every name not present in the ledger, `update_mastery`
returns `false` and leaves the ledger completely unmodified. -/
theorem claim_C8_unknown_name_update_noop (st : LearnerState) (name : String) (nm sc : ℚ) (fb now : String)
    (h : st.lookupKP name = none) :
    st.update_mastery_st name nm sc fb now = (st, false) := by
  have h2 : st.knowledge_points.find? (fun p => p.1 = name) = none := by
    unfold LearnerState.lookupKP at h
    exact Option.map_eq_none'.mp h
  unfold LearnerState.update_mastery_st
  rw [h2]

/-- A successful lookup exposes the underlying association-list entry. -/
theorem lookup_some_find (st : LearnerState) (name : String) (kp : KnowledgePoint)
    (h : st.lookupKP name = some kp) :
    ∃ q, st.knowledge_points.find? (fun p => p.1 = name) = some q ∧ q.2 = kp := by
  unfold LearnerState.lookupKP at h
  cases hfind : st.knowledge_points.find? (fun p => p.1 = name) with
  | none => rw [hfind] at h; simp at h
  | some q =>
    rw [hfind] at h
    simp only [Option.map_some'] at h
    exact ⟨q, rfl, by injection h⟩

/-- On an existing name, `add_knowledge_point` ignores its
`initial_mastery` argument. -/
theorem upsert_ignores_initial (st : LearnerState) (name : String) (t : ℚ)
    (n : String) (im im' : ℚ) (now : String) (kp : KnowledgePoint)
    (h : st.lookupKP name = some kp) :
    st.add_knowledge_point name t n im now = st.add_knowledge_point name t n im' now := by
  obtain ⟨q, hq, hq2⟩ := lookup_some_find st name kp h
  unfold LearnerState.add_knowledge_point
  rw [hq]
  simp

/-- On an existing name, `add_knowledge_point` stores the old point with
only `target_mastery` overwritten and `note` overwritten when the note
argument is non-empty. -/
theorem upsert_lookup_existing (st : LearnerState) (name : String) (t : ℚ)
    (n : String) (im : ℚ) (now : String) (kp : KnowledgePoint)
    (h : st.lookupKP name = some kp) :
    (st.add_knowledge_point name t n im now).lookupKP name
      = some { kp with target_mastery := t, note := if n = "" then kp.note else n } := by
  obtain ⟨q, hq, hq2⟩ := lookup_some_find st name kp h
  unfold LearnerState.add_knowledge_point
  rw [hq]
  simp only [Option.isNone_some, Bool.false_eq_true, if_false]
  unfold LearnerState.lookupKP
  rw [find_map_if st.knowledge_points name
    (fun x => { x with target_mastery := t, note := if n = "" then x.note else n })]
  rw [hq]
  simp [hq2]

/-- On an existing name, `add_knowledge_point` does not touch entries under
any other name. -/
theorem upsert_frame_other (st : LearnerState) (name : String) (t : ℚ)
    (n : String) (im : ℚ) (now : String) (kp : KnowledgePoint)
    (h : st.lookupKP name = some kp) (other : String) (hne : other ≠ name) :
    (st.add_knowledge_point name t n im now).lookupKP other = st.lookupKP other := by
  obtain ⟨q, hq, hq2⟩ := lookup_some_find st name kp h
  unfold LearnerState.add_knowledge_point
  rw [hq]
  simp only [Option.isNone_some, Bool.false_eq_true, if_false]
  unfold LearnerState.lookupKP
  rw [find_map_if_ne st.knowledge_points name other
    (fun x => { x with target_mastery := t, note := if n = "" then x.note else n }) hne]

/-- Claim C9: for every name already present in the ledger, the upsert
`add_knowledge_point` updates only the target mastery and the note of the
existing knowledge point: its `actual_mastery`, `history` and `created_at`
(and `updated_at`) are unchanged, the `initial_mastery` argument is
ignored, and entries under other names are untouched. -/
theorem claim_C9_upsert_preserves_mastery_history (st : LearnerState) (name : String) (t : ℚ) (n : String)
    (im im' : ℚ) (now : String) (kp : KnowledgePoint)
    (h : st.lookupKP name = some kp) :
    st.add_knowledge_point name t n im now = st.add_knowledge_point name t n im' now ∧
    (st.add_knowledge_point name t n im now).lookupKP name
      = some { kp with target_mastery := t, note := if n = "" then kp.note else n } ∧
    (∀ other, other ≠ name →
      (st.add_knowledge_point name t n im now).lookupKP other = st.lookupKP other) :=
  ⟨upsert_ignores_initial st name t n im im' now kp h,
   upsert_lookup_existing st name t n im now kp h,
   fun other hne => upsert_frame_other st name t n im now kp h other hne⟩

/-- Claim C10: when `add_knowledge_point` is called with an existing name
and an empty note string, the previously stored note is left unchanged,
while `target_mastery` is overwritten unconditionally; a non-empty note
argument does overwrite the stored note. -/
theorem claim_C10_empty_note_preserved (st : LearnerState) (name : String) (t im : ℚ)
    (now : String) (kp : KnowledgePoint)
    (h : st.lookupKP name = some kp) :
    (st.add_knowledge_point name t "" im now).lookupKP name
      = some { kp with target_mastery := t } ∧
    (∀ n, n ≠ "" → (st.add_knowledge_point name t n im now).lookupKP name
      = some { kp with target_mastery := t, note := n }) := by
  constructor
  · have h1 := upsert_lookup_existing st name t "" im now kp h
    simpa using h1
  · intro n hn
    have h1 := upsert_lookup_existing st name t n im now kp h
    rw [if_neg hn] at h1
    exact h1

/-- Claim C3, counterexample: the ledger stores mastery arguments without
clamping.  Adding point `"x"` and then updating it through the ledger with
`new_mastery = 2` leaves a stored `actual_mastery` of `2 > 1`, so the
claimed invariant "stored mastery is in [0,1] after every update with
arbitrary real arguments" fails on the code. -/
theorem claim_C3_counterexample :
    ∃ kp, ((LearnerState.empty.add_knowledge_point "x" 0.8 "" 0 "t0").update_mastery_st
        "x" 2 1 "fb" "t1").1.lookupKP "x" = some kp ∧ 1 < kp.actual_mastery :=
  ⟨_, rfl, by norm_num [KnowledgePoint.update_mastery_kp]⟩

/-- Claim C3, amended: the ledger itself performs no clamping, so the
stored-mastery invariant holds exactly when the mastery arguments handed to
the ledger are already in `[0,1]` (as are all values produced by the
scoring engine, which clamps and rounds its result into `[0,1]`): both
ledger operations preserve the all-stored-masteries-in-`[0,1]` invariant
under in-range arguments. -/
theorem claim_C3_bounds_amended :
    (∀ st name t n im now, InBoundsLedger st → 0 ≤ im → im ≤ 1 →
        InBoundsLedger (st.add_knowledge_point name t n im now)) ∧
    (∀ st name nm sc fb now, InBoundsLedger st → 0 ≤ nm → nm ≤ 1 →
        InBoundsLedger (st.update_mastery_st name nm sc fb now).1) := by
  constructor
  · intro st name t n im now hst h0 h1
    unfold LearnerState.add_knowledge_point
    cases hfind : st.knowledge_points.find? (fun p => p.1 = name) with
    | none =>
      simp only [hfind, Option.isNone_none, if_true]
      intro p hp
      simp only [List.mem_append, List.mem_singleton] at hp
      rcases hp with hp | hp
      · exact hst p hp
      · subst hp
        exact ⟨h0, h1⟩
    | some q =>
      simp only [hfind, Option.isNone_some, Bool.false_eq_true, if_false]
      intro p hp
      simp only [List.mem_map] at hp
      obtain ⟨r, hr, hfr⟩ := hp
      subst hfr
      by_cases hrn : r.1 = name
      · simp only [hrn, if_true]
        exact hst r hr
      · simp only [hrn, if_false]
        exact hst r hr
  · intro st name nm sc fb now hst h0 h1
    unfold LearnerState.update_mastery_st
    cases hfind : st.knowledge_points.find? (fun p => p.1 = name) with
    | none => exact hst
    | some q =>
      intro p hp
      simp only [List.mem_map] at hp
      obtain ⟨r, hr, hfr⟩ := hp
      subst hfr
      by_cases hrn : r.1 = name
      · simp only [hrn, if_true]
        exact ⟨h0, h1⟩
      · simp only [hrn, if_false]
        exact hst r hr

/-- Witness for claim C8 at a concrete input: updating the unknown name
`"y"` in the one-point sample ledger fails and changes nothing. -/
theorem claim_C8_unknown_name_update_noop_witness :
    sampleLedger.update_mastery_st "y" 0.5 0.5 "fb" "t1" = (sampleLedger, false) :=
  claim_C8_unknown_name_update_noop sampleLedger "y" 0.5 0.5 "fb" "t1" rfl

/-- Witness for claim C9 at a concrete input: re-upserting `"x"` in the
sample ledger. -/
theorem claim_C9_upsert_preserves_mastery_history_witness :
    sampleLedger.add_knowledge_point "x" 0.9 "nn" 0.5 "t1"
      = sampleLedger.add_knowledge_point "x" 0.9 "nn" 0.7 "t1" ∧
    (sampleLedger.add_knowledge_point "x" 0.9 "nn" 0.5 "t1").lookupKP "x"
      = some
        { sampleKP with
          target_mastery := 0.9
          note := if "nn" = "" then sampleKP.note else "nn" } ∧
    (∀ other, other ≠ "x" →
      (sampleLedger.add_knowledge_point "x" 0.9 "nn" 0.5 "t1").lookupKP other
        = sampleLedger.lookupKP other) :=
  claim_C9_upsert_preserves_mastery_history sampleLedger "x" 0.9 "nn" 0.5 0.7 "t1"
    sampleKP rfl

/-- Witness for claim C10 at a concrete input: upserting `"x"` with an
empty note in the sample ledger. -/
theorem claim_C10_empty_note_preserved_witness :
    (sampleLedger.add_knowledge_point "x" 0.9 "" 0.5 "t1").lookupKP "x"
      = some { sampleKP with target_mastery := 0.9 } ∧
    (∀ n, n ≠ "" → (sampleLedger.add_knowledge_point "x" 0.9 n 0.5 "t1").lookupKP "x"
      = some { sampleKP with target_mastery := 0.9, note := n }) :=
  claim_C10_empty_note_preserved sampleLedger "x" 0.9 0.5 "t1" sampleKP rfl

/-- Witness for claim C3 (amended) at a concrete input: adding `"x"` with
in-range initial mastery to the empty ledger keeps all stored masteries in
`[0,1]`. -/
theorem claim_C3_bounds_amended_witness :
    InBoundsLedger (LearnerState.empty.add_knowledge_point "x" 0.8 "" 0 "t0") :=
  claim_C3_bounds_amended.1 LearnerState.empty "x" 0.8 "" 0 "t0"
    (fun p hp => absurd hp (List.not_mem_nil p)) (by norm_num) (by norm_num)

/-! ### Claim theorems for the dependency orderer -/

section CountPHelpers

variable {α : Type} (p q : α → Prop) [DecidablePred p] [DecidablePred q]

theorem countP_and_le (l : List α) :
    l.countP (fun a => p a ∧ q a) ≤ l.countP (fun a => p a) := by
  apply List.countP_mono_left
  intro a _ h
  simp only [decide_eq_true_eq] at h ⊢
  exact h.1

theorem countP_lt_of_mem_not (l : List α) (a : α) (ha : a ∈ l)
    (hp : p a) (hq : ¬ q a) :
    l.countP (fun a => p a ∧ q a) < l.countP (fun a => p a) := by
  induction l with
  | nil => cases ha
  | cons b rest ih =>
    rcases List.mem_cons.mp ha with rfl | hb
    · have hle := countP_and_le p q rest
      simp only [List.countP_cons, decide_eq_true_eq]
      rw [if_neg (fun hand => hq hand.2), if_pos hp]
      omega
    · have hlt := ih hb
      simp only [List.countP_cons, decide_eq_true_eq]
      by_cases hpb : p b
      · by_cases hqb : q b
        · rw [if_pos ⟨hpb, hqb⟩, if_pos hpb]; omega
        · rw [if_neg (fun hand => hqb hand.2), if_pos hpb]; omega
      · rw [if_neg (fun hand => hpb hand.1), if_neg hpb]; omega

theorem countP_or_disjoint (l : List α) (h : ∀ a ∈ l, ¬(p a ∧ q a)) :
    l.countP (fun a => p a ∨ q a)
      = l.countP (fun a => p a) + l.countP (fun a => q a) := by
  induction l with
  | nil => simp
  | cons a rest ih =>
    have hrest := ih (fun b hb => h b (List.mem_cons_of_mem a hb))
    have ha := h a (List.mem_cons_self a rest)
    simp only [List.countP_cons, decide_eq_true_eq]
    by_cases hp : p a
    · have hq : ¬ q a := fun hq => ha ⟨hp, hq⟩
      rw [if_pos (Or.inl hp), if_pos hp, if_neg hq, hrest]
      omega
    · by_cases hq : q a
      · rw [if_pos (Or.inr hq), if_neg hp, if_pos hq, hrest]
        omega
      · rw [if_neg (fun hor => hor.elim hp hq), if_neg hp, if_neg hq, hrest]
        omega

theorem countP_full_of_countP_and_eq (l : List α)
    (h : l.countP (fun a => p a ∧ q a) = l.countP (fun a => p a)) :
    ∀ a ∈ l, p a → q a := by
  intro a ha hp
  by_contra hq
  exact absurd h (Nat.ne_of_lt (countP_lt_of_mem_not p q l a ha hp hq))

end CountPHelpers

theorem dedupFirstAux_eq_self (l : List String) :
    ∀ seen : List String, (∀ v ∈ l, v ∉ seen) → l.Nodup →
      dedupFirstAux seen l = l := by
  induction l with
  | nil => intro seen _ _; rfl
  | cons v rest ih =>
    intro seen h1 h2
    simp only [dedupFirstAux]
    rw [if_neg (h1 v (List.mem_cons_self v rest))]
    have h2' := List.nodup_cons.mp h2
    congr 1
    apply ih
    · intro w hw
      simp only [List.mem_cons]
      rintro (rfl | hws)
      · exact h2'.1 hw
      · exact h1 w (List.mem_cons_of_mem v hw) hws
    · exact h2'.2

theorem dedupFirst_eq_self {l : List String} (h : l.Nodup) : dedupFirst l = l :=
  dedupFirstAux_eq_self l [] (fun v _ hv => (List.not_mem_nil v) hv) h

theorem count_adjTargets (edges : List (String × String)) (u v : String) :
    (adjTargets edges u).count v = edges.countP (fun e => e.2 = v ∧ e.1 = u) := by
  unfold adjTargets
  rw [List.count, List.countP_map, List.countP_filter]
  apply List.countP_congr
  intro e _
  simp only [Function.comp_apply, Bool.and_eq_true, beq_iff_eq, decide_eq_true_eq]

theorem outDeg_append (edges : List (String × String)) (path : List String)
    (u v : String) (hu : u ∉ path) :
    outDeg edges (path ++ [u]) v
      = outDeg edges path v + edges.countP (fun e => e.2 = v ∧ e.1 = u) := by
  unfold outDeg
  rw [show edges.countP (fun e => e.2 = v ∧ e.1 ∈ path ++ [u])
        = edges.countP (fun e => (e.2 = v ∧ e.1 ∈ path) ∨ (e.2 = v ∧ e.1 = u)) from
      List.countP_congr (by
        intro e _
        simp only [decide_eq_true_eq, List.mem_append, List.mem_singleton]
        tauto)]
  exact countP_or_disjoint _ _ edges
    (fun e _ h => hu (h.2.2 ▸ h.1.2))

theorem outDeg_le_in0 (edges : List (String × String)) (path : List String)
    (v : String) :
    outDeg edges path v ≤ edges.countP (fun e => e.2 = v) :=
  countP_and_le _ _ edges

theorem sources_in_path_of_f_zero (edges : List (String × String))
    (path : List String) (v : String)
    (h : (edges.countP (fun e => e.2 = v) : ℤ) - (outDeg edges path v : ℤ) = 0) :
    ∀ e ∈ edges, e.2 = v → e.1 ∈ path := by
  have h2 : edges.countP (fun e => e.2 = v ∧ e.1 ∈ path)
      = edges.countP (fun e => e.2 = v) := by
    unfold outDeg at h
    omega
  exact countP_full_of_countP_and_eq _ _ edges h2

theorem foldl_stepNeighbor_fst (l : List String) :
    ∀ (f : String → ℤ) (acc : List String) (w : String),
      (l.foldl stepNeighbor (f, acc)).1 w = f w - (l.count w : ℤ) := by
  induction l with
  | nil => intro f acc w; simp
  | cons v rest ih =>
    intro f acc w
    simp only [List.foldl_cons, stepNeighbor]
    rw [ih]
    by_cases h : w = v
    · subst h
      rw [List.count_cons_self]
      simp only [if_pos rfl]
      push_cast
      ring
    · rw [List.count_cons_of_ne h]
      simp only [if_neg h]

theorem foldl_stepNeighbor_snd_mem (l : List String) :
    ∀ (f : String → ℤ) (acc : List String) (w : String),
      (w ∈ (l.foldl stepNeighbor (f, acc)).2
        ↔ w ∈ acc ∨ (1 ≤ f w ∧ f w ≤ (l.count w : ℤ))) := by
  induction l with
  | nil =>
    intro f acc w
    simp only [List.foldl_nil, List.count_nil, Nat.cast_zero]
    constructor
    · exact fun h => Or.inl h
    · rintro (h | ⟨h1, h2⟩)
      · exact h
      · omega
  | cons v rest ih =>
    intro f acc w
    simp only [List.foldl_cons, stepNeighbor]
    rw [ih]
    by_cases h : w = v
    · subst h
      rw [List.count_cons_self]
      simp only [if_pos rfl]
      have hc : (0 : ℤ) ≤ (rest.count w : ℤ) := Int.ofNat_nonneg _
      by_cases hz : f w - 1 = 0
      · rw [if_pos hz]
        simp only [List.mem_append, List.mem_singleton]
        push_cast
        constructor
        · intro _
          exact Or.inr ⟨by omega, by omega⟩
        · intro _
          exact Or.inl (Or.inr (by trivial))
      · rw [if_neg hz]
        push_cast
        constructor
        · rintro (h1 | ⟨h1, h2⟩)
          · exact Or.inl h1
          · exact Or.inr ⟨by omega, by omega⟩
        · rintro (h1 | ⟨h1, h2⟩)
          · exact Or.inl h1
          · exact Or.inr ⟨by omega, by omega⟩
    · rw [List.count_cons_of_ne h]
      simp only [if_neg h]
      by_cases hz : f v - 1 = 0
      · rw [if_pos hz]
        simp only [List.mem_append, List.mem_singleton]
        constructor
        · rintro ((h1 | h1) | h2)
          · exact Or.inl h1
          · exact absurd h1 h
          · exact Or.inr h2
        · rintro (h1 | h2)
          · exact Or.inl (Or.inl h1)
          · exact Or.inr h2
      · rw [if_neg hz]

theorem foldl_stepNeighbor_snd_nodup (l : List String) :
    ∀ (f : String → ℤ) (acc : List String),
      acc.Nodup → (∀ w ∈ acc, f w ≤ 0) →
      (l.foldl stepNeighbor (f, acc)).2.Nodup := by
  induction l with
  | nil => intro f acc h1 _; exact h1
  | cons v rest ih =>
    intro f acc h1 h2
    simp only [List.foldl_cons, stepNeighbor]
    by_cases hz : f v - 1 = 0
    · rw [if_pos hz]
      apply ih
      · rw [List.nodup_append]
        refine ⟨h1, List.nodup_singleton v, ?_⟩
        intro w hw hwv
        rw [List.mem_singleton] at hwv
        subst hwv
        have h3 := h2 w hw
        omega
      · intro w hw
        rcases List.mem_append.mp hw with hw | hw
        · by_cases hwv : w = v
          · rw [if_pos hwv]
            omega
          · rw [if_neg hwv]
            exact h2 w hw
        · rw [List.mem_singleton] at hw
          rw [if_pos hw]
          omega
    · rw [if_neg hz]
      apply ih
      · exact h1
      · intro w hw
        by_cases hwv : w = v
        · rw [if_pos hwv]
          have h3 := h2 w hw
          rw [hwv] at h3
          omega
        · rw [if_neg hwv]
          exact h2 w hw

theorem kahnInv_step (edges : List (String × String)) (keys : List String)
    (hT : ∀ e ∈ edges, e.2 ∈ keys)
    (u : String) (rest : List String) (f : String → ℤ) (path : List String)
    (h : KahnInv edges keys (u :: rest) f path) :
    KahnInv edges keys
      (rest ++ ((adjTargets edges u).foldl stepNeighbor (f, [])).2)
      ((adjTargets edges u).foldl stepNeighbor (f, [])).1
      (path ++ [u]) := by
  obtain ⟨hpnd, hqnd, hdisj⟩ := List.nodup_append.mp h.nodup
  have hu_rest : u ∉ rest := (List.nodup_cons.mp hqnd).1
  have hrest_nd : rest.Nodup := (List.nodup_cons.mp hqnd).2
  have hu_path : u ∉ path := fun hu => hdisj hu (List.mem_cons_self u rest)
  have hfu : f u = 0 := h.queue_zero u (List.mem_cons_self u rest)
  have hsrc : ∀ v, f v = 0 → ∀ e ∈ edges, e.2 = v → e.1 ∈ path := by
    intro v hv
    apply sources_in_path_of_f_zero edges path v
    have := h.count_eq v
    unfold in0 at this
    omega
  -- the multiplicity of the edge (u, v) in the adjacency list of u
  have hcount : ∀ v, ((adjTargets edges u).count v : ℤ)
      = (edges.countP (fun e => e.2 = v ∧ e.1 = u) : ℤ) := by
    intro v
    rw [count_adjTargets]
  -- edges from u cannot target already-seen nodes
  have hcnt_zero : ∀ v, v ∈ path ∨ v ∈ u :: rest →
      edges.countP (fun e => e.2 = v ∧ e.1 = u) = 0 := by
    intro v hv
    rw [List.countP_eq_zero]
    intro e he
    simp only [decide_eq_true_eq]
    rintro ⟨h2v, h1u⟩
    have hfv : f v = 0 := by
      rcases hv with hv | hv
      · exact h.path_zero v hv
      · exact h.queue_zero v hv
    have := hsrc v hfv e he h2v
    rw [h1u] at this
    exact hu_path this
  -- the in-degree of v bounds the u-multiplicity plus the processed count
  have hcnt_le : ∀ v, (edges.countP (fun e => e.2 = v ∧ e.1 = u) : ℤ) ≤ f v := by
    intro v
    have hsum : edges.countP (fun e => (e.2 = v ∧ e.1 ∈ path) ∨ (e.2 = v ∧ e.1 = u))
        = edges.countP (fun e => e.2 = v ∧ e.1 ∈ path)
          + edges.countP (fun e => e.2 = v ∧ e.1 = u) :=
      countP_or_disjoint _ _ edges (fun e _ hc => hu_path (hc.2.2 ▸ hc.1.2))
    have hle : edges.countP (fun e => (e.2 = v ∧ e.1 ∈ path) ∨ (e.2 = v ∧ e.1 = u))
        ≤ edges.countP (fun e => e.2 = v) := by
      apply List.countP_mono_left
      intro e _ he
      simp only [decide_eq_true_eq] at he ⊢
      rcases he with he | he
      · exact he.1
      · exact he.1
    have hc := h.count_eq v
    unfold in0 outDeg at hc
    omega
  have hF : ∀ w, ((adjTargets edges u).foldl stepNeighbor (f, [])).1 w
      = f w - (edges.countP (fun e => e.2 = w ∧ e.1 = u) : ℤ) := by
    intro w
    rw [foldl_stepNeighbor_fst, hcount]
  have hN : ∀ w, w ∈ ((adjTargets edges u).foldl stepNeighbor (f, [])).2
      ↔ (1 ≤ f w ∧ f w ≤ (edges.countP (fun e => e.2 = w ∧ e.1 = u) : ℤ)) := by
    intro w
    rw [foldl_stepNeighbor_snd_mem]
    rw [hcount]
    simp
  have hN_nodup : ((adjTargets edges u).foldl stepNeighbor (f, [])).2.Nodup :=
    foldl_stepNeighbor_snd_nodup _ f [] List.nodup_nil (by simp)
  have hN_keys : ∀ w, w ∈ ((adjTargets edges u).foldl stepNeighbor (f, [])).2
      → w ∈ keys := by
    intro w hw
    obtain ⟨h1, h2⟩ := (hN w).mp hw
    have hpos : 0 < edges.countP (fun e => e.2 = w ∧ e.1 = u) := by omega
    obtain ⟨e, he, hpe⟩ := List.countP_pos_iff.mp hpos
    simp only [decide_eq_true_eq] at hpe
    rw [← hpe.1]
    exact hT e he
  have hN_fresh : ∀ w, w ∈ ((adjTargets edges u).foldl stepNeighbor (f, [])).2
      → w ∉ path ∧ w ∉ u :: rest := by
    intro w hw
    obtain ⟨h1, _⟩ := (hN w).mp hw
    constructor
    · intro hwp
      have := h.path_zero w hwp
      omega
    · intro hwq
      have := h.queue_zero w hwq
      omega
  constructor
  -- count_eq
  · intro v
    rw [hF, h.count_eq v, outDeg_append edges path u v hu_path]
    push_cast
    ring
  -- nodup
  · have heq : (path ++ [u]) ++ (rest ++ ((adjTargets edges u).foldl stepNeighbor (f, [])).2)
        = (path ++ u :: rest) ++ ((adjTargets edges u).foldl stepNeighbor (f, [])).2 := by
      simp
    rw [heq, List.nodup_append]
    refine ⟨h.nodup, hN_nodup, ?_⟩
    intro a ha haN
    obtain ⟨hnp, hnq⟩ := hN_fresh a haN
    rcases List.mem_append.mp ha with ha | ha
    · exact hnp ha
    · exact hnq ha
  -- mem_keys
  · intro v hv
    rcases List.mem_append.mp hv with hv | hv
    · rcases List.mem_append.mp hv with hv | hv
      · exact h.mem_keys v (List.mem_append.mpr (Or.inl hv))
      · rw [List.mem_singleton] at hv
        subst hv
        exact h.mem_keys v (List.mem_append.mpr (Or.inr (List.mem_cons_self v rest)))
    · rcases List.mem_append.mp hv with hv | hv
      · exact h.mem_keys v (List.mem_append.mpr (Or.inr (List.mem_cons_of_mem u hv)))
      · exact hN_keys v hv
  -- pending_pos
  · intro v hvk hvp hvq
    have hvpath : v ∉ path := fun hv => hvp (List.mem_append.mpr (Or.inl hv))
    have hvu : v ≠ u := by
      intro hvu
      exact hvp (List.mem_append.mpr (Or.inr (by rw [hvu]; exact List.mem_singleton_self u)))
    have hvrest : v ∉ rest := fun hv => hvq (List.mem_append.mpr (Or.inl hv))
    have hvN : v ∉ ((adjTargets edges u).foldl stepNeighbor (f, [])).2 :=
      fun hv => hvq (List.mem_append.mpr (Or.inr hv))
    have hold : 1 ≤ f v := by
      apply h.pending_pos v hvk hvpath
      intro hv
      rcases List.mem_cons.mp hv with hv | hv
      · exact hvu hv
      · exact hvrest hv
    rw [hF]
    rw [hN v] at hvN
    push_neg at hvN
    have := hvN hold
    omega
  -- queue_zero
  · intro v hv
    rw [hF]
    rcases List.mem_append.mp hv with hv | hv
    · have h0 := h.queue_zero v (List.mem_cons_of_mem u hv)
      have hz := hcnt_zero v (Or.inr (List.mem_cons_of_mem u hv))
      rw [hz]
      omega
    · obtain ⟨h1, h2⟩ := (hN v).mp hv
      have h3 := hcnt_le v
      omega
  -- path_zero
  · intro v hv
    rw [hF]
    rcases List.mem_append.mp hv with hv | hv
    · have h0 := h.path_zero v hv
      have hz := hcnt_zero v (Or.inl hv)
      rw [hz]
      omega
    · rw [List.mem_singleton] at hv
      subst hv
      have hz := hcnt_zero v (Or.inr (List.mem_cons_self v rest))
      rw [hz]
      omega
  -- sound
  · intro e he htarget
    rcases List.mem_append.mp htarget with hv | hv
    · exact (h.sound e he hv).trans (List.sublist_append_left path [u])
    · rw [List.mem_singleton] at hv
      have hsrc_e : e.1 ∈ path := by
        apply hsrc u hfu e he
        exact hv
      have h1 : List.Sublist [e.1] path := List.singleton_sublist.mpr hsrc_e
      have h2 : [e.1, e.2] = [e.1] ++ [e.2] := rfl
      rw [h2, hv]
      exact List.Sublist.append h1 (List.Sublist.refl [u])

theorem kahnInv_init (edges : List (String × String)) (keys : List String)
    (hkeys_nd : keys.Nodup) :
    KahnInv edges keys (keys.filter (fun v => in0 edges v = 0)) (in0 edges) [] := by
  constructor
  · intro v
    have h0 : outDeg edges [] v = 0 := by
      unfold outDeg
      rw [List.countP_eq_zero]
      intro e _
      simp
    rw [h0]
    push_cast
    ring
  · simp only [List.nil_append]
    exact hkeys_nd.filter _
  · intro v hv
    simp only [List.nil_append] at hv
    exact List.mem_of_mem_filter hv
  · intro v hvk _ hvq
    have hne : ¬ in0 edges v = 0 := by
      intro h0
      exact hvq (List.mem_filter.mpr ⟨hvk, by simp [h0]⟩)
    unfold in0 at hne ⊢
    omega
  · intro v hv
    have := (List.mem_filter.mp hv).2
    simpa using this
  · intro v hv
    cases hv
  · intro e _ htarget
    cases htarget

theorem kahnRun_final (edges : List (String × String)) (keys : List String)
    (hT : ∀ e ∈ edges, e.2 ∈ keys) :
    ∀ (fuel : ℕ) (queue : List String) (f : String → ℤ) (path : List String),
      KahnInv edges keys queue f path →
      keys.length ≤ fuel + path.length →
      ∃ f', KahnInv edges keys [] f'
        (kahnRun (adjTargets edges) fuel queue f path) := by
  intro fuel
  induction fuel with
  | zero =>
    intro queue f path hinv hlen
    have hsp : (path ++ queue).Subperm keys :=
      List.Nodup.subperm hinv.nodup (fun a ha => hinv.mem_keys a ha)
    have hlen2 := hsp.length_le
    rw [List.length_append] at hlen2
    have hq : queue = [] := by
      apply List.length_eq_zero.mp
      omega
    subst hq
    exact ⟨f, hinv⟩
  | succ fuel ih =>
    intro queue f path hinv hlen
    cases queue with
    | nil =>
      refine ⟨f, ?_⟩
      simpa [kahnRun] using hinv
    | cons u rest =>
      have hstep := kahnInv_step edges keys hT u rest f path hinv
      have hlen' : keys.length ≤ fuel + (path ++ [u]).length := by
        rw [List.length_append]
        simp only [List.length_singleton]
        omega
      have hrec := ih _ _ _ hstep hlen'
      simpa [kahnRun] using hrec

theorem kahn_complete (edges : List (String × String)) (keys : List String)
    (hS : ∀ e ∈ edges, e.1 ∈ keys) (hA : Acyclic edges)
    (f : String → ℤ) (path : List String) (h : KahnInv edges keys [] f path) :
    ∀ v ∈ keys, v ∈ path := by
  by_contra hcon
  push_neg at hcon
  obtain ⟨v0, hv0k, hv0p⟩ := hcon
  have htrans : Transitive (fun (a b : {x // x ∈ keys}) =>
      Relation.TransGen (fun x y => (x, y) ∈ edges) a.1 b.1) :=
    fun a b c hab hbc => Relation.TransGen.trans hab hbc
  have hirr : Irreflexive (fun (a b : {x // x ∈ keys}) =>
      Relation.TransGen (fun x y => (x, y) ∈ edges) a.1 b.1) :=
    fun a ha => hA a.1 ha
  have hfin : Finite {x // x ∈ keys} := (List.finite_toSet keys).to_subtype
  have hwf : WellFounded (fun (a b : {x // x ∈ keys}) =>
      Relation.TransGen (fun x y => (x, y) ∈ edges) a.1 b.1) := by
    haveI : IsTrans {x // x ∈ keys} (fun a b =>
        Relation.TransGen (fun x y => (x, y) ∈ edges) a.1 b.1) := ⟨htrans⟩
    haveI : IsIrrefl {x // x ∈ keys} (fun a b =>
        Relation.TransGen (fun x y => (x, y) ∈ edges) a.1 b.1) := ⟨hirr⟩
    exact Finite.wellFounded_of_trans_of_irrefl _
  obtain ⟨m, hmS, hmin⟩ := hwf.has_min {a | a.1 ∉ path} ⟨⟨v0, hv0k⟩, hv0p⟩
  have hfm : 1 ≤ f m.1 :=
    h.pending_pos m.1 m.2 hmS (fun hx => absurd hx (List.not_mem_nil m.1))
  have hlt : outDeg edges path m.1 < edges.countP (fun e => e.2 = m.1) := by
    have hc := h.count_eq m.1
    unfold in0 at hc
    omega
  have hex : ∃ e ∈ edges, e.2 = m.1 ∧ e.1 ∉ path := by
    by_contra hall
    push_neg at hall
    have heq : edges.countP (fun e => e.2 = m.1 ∧ e.1 ∈ path)
        = edges.countP (fun e => e.2 = m.1) := by
      apply List.countP_congr
      intro e he
      simp only [decide_eq_true_eq]
      constructor
      · exact fun hc => hc.1
      · exact fun hc => ⟨hc, hall e he hc⟩
    unfold outDeg at hlt
    omega
  obtain ⟨e, he, hem, hesrc⟩ := hex
  have hsrc_keys : e.1 ∈ keys := hS e he
  have hrel : Relation.TransGen (fun x y => (x, y) ∈ edges) e.1 m.1 := by
    apply Relation.TransGen.single
    rw [← hem]
    simpa using he
  exact hmin ⟨e.1, hsrc_keys⟩ hesrc hrel

theorem kahn_correct (nodes : List String) (edges : List (String × String))
    (hN : nodes.Nodup) (hE : ∀ e ∈ edges, e.1 ∈ nodes ∧ e.2 ∈ nodes)
    (hA : Acyclic edges) :
    ∃ path, get_learning_path nodes edges = Except.ok path ∧
      path.Perm nodes ∧ (∀ e ∈ edges, List.Sublist [e.1, e.2] path) := by
  have hkeys : dedupFirst nodes = nodes := dedupFirst_eq_self hN
  have hT : ∀ e ∈ edges, e.2 ∈ nodes := fun e he => (hE e he).2
  have hS : ∀ e ∈ edges, e.1 ∈ nodes := fun e he => (hE e he).1
  have hinit := kahnInv_init edges nodes hN
  obtain ⟨f', hfin⟩ := kahnRun_final edges nodes hT nodes.length
    (nodes.filter (fun v => in0 edges v = 0)) (in0 edges) [] hinit (by simp)
  have hglp : get_learning_path nodes edges
      = Except.ok (kahnRun (adjTargets edges) nodes.length
          (nodes.filter (fun v => in0 edges v = 0)) (in0 edges) []) := by
    simp only [get_learning_path, hkeys]
    rw [if_pos hT]
  have hnodup : (kahnRun (adjTargets edges) nodes.length
      (nodes.filter (fun v => in0 edges v = 0)) (in0 edges) []).Nodup := by
    have := hfin.nodup
    simpa using this
  have hsub : (kahnRun (adjTargets edges) nodes.length
      (nodes.filter (fun v => in0 edges v = 0)) (in0 edges) []) ⊆ nodes := by
    intro a ha
    exact hfin.mem_keys a (by simpa using ha)
  have hsup : nodes ⊆ (kahnRun (adjTargets edges) nodes.length
      (nodes.filter (fun v => in0 edges v = 0)) (in0 edges) []) := by
    intro v hv
    exact kahn_complete edges nodes hS hA f' _ hfin v hv
  have hperm : (kahnRun (adjTargets edges) nodes.length
      (nodes.filter (fun v => in0 edges v = 0)) (in0 edges) []).Perm nodes :=
    (List.Nodup.subperm hnodup hsub).antisymm (List.Nodup.subperm hN hsup)
  refine ⟨_, hglp, hperm, ?_⟩
  intro e he
  exact hfin.sound e he (hperm.mem_iff.mpr (hT e he))

theorem transGen_exists_step {α : Type} {r : α → α → Prop} {a b : α}
    (h : Relation.TransGen r a b) : ∃ x y, r x y := by
  induction h with
  | single h1 => exact ⟨_, _, h1⟩
  | tail _ h1 _ => exact ⟨_, _, h1⟩

theorem acyclic_nil : Acyclic [] := by
  intro v h
  obtain ⟨x, y, hxy⟩ := transGen_exists_step h
  exact absurd hxy (List.not_mem_nil _)

/-- Claim C7: on a well-formed acyclic graph (distinct node ids, every edge
endpoint declared), `get_learning_path` succeeds and returns a sequence
containing each node exactly once (a permutation of the node list) in which
every edge's source precedes its target; being a pure function of the node
and edge lists, the output is reproducible, with ties among zero-in-degree
nodes broken by node-list insertion order (witnessed by the edgeless
three-node graph, returned in insertion order); in particular on nodes
{A,B,C} with edges [(A,B),(B,C)] it returns exactly [A,B,C]. -/
theorem claim_C7_topological_order :
    (∀ (nodes : List String) (edges : List (String × String)),
      nodes.Nodup → (∀ e ∈ edges, e.1 ∈ nodes ∧ e.2 ∈ nodes) → Acyclic edges →
      ∃ path, get_learning_path nodes edges = Except.ok path ∧
        path.Perm nodes ∧ (∀ e ∈ edges, List.Sublist [e.1, e.2] path)) ∧
    get_learning_path ["A", "B", "C"] [("A", "B"), ("B", "C")]
      = Except.ok ["A", "B", "C"] ∧
    get_learning_path ["C", "A", "B"] [] = Except.ok ["C", "A", "B"] :=
  ⟨fun nodes edges hN hE hA => kahn_correct nodes edges hN hE hA, rfl, rfl⟩

/-- Witness for claim C7 at a concrete input: the single-node, edgeless
graph. -/
theorem claim_C7_topological_order_witness :
    ∃ path, get_learning_path ["X"] [] = Except.ok path ∧
      path.Perm ["X"] ∧
      (∀ e ∈ ([] : List (String × String)), List.Sublist [e.1, e.2] path) :=
  claim_C7_topological_order.1 ["X"] []
    (List.nodup_singleton "X")
    (fun e he => absurd he (List.not_mem_nil e))
    acyclic_nil

/-- Claim C2, counterexample: on nodes {A,B} with the cyclic edges
[(A,B),(B,A)], `get_learning_path` raises nothing and reports nothing: it
returns `Except.ok []`, a silent partial order with fewer elements than the
node count, rather than a cycle error. -/
theorem claim_C2_counterexample :
    get_learning_path ["A", "B"] [("A", "B"), ("B", "A")] = Except.ok [] ∧
    ∀ msg, get_learning_path ["A", "B"] [("A", "B"), ("B", "A")]
      ≠ Except.error msg := by
  have h0 : get_learning_path ["A", "B"] [("A", "B"), ("B", "A")]
      = Except.ok [] := rfl
  refine ⟨h0, ?_⟩
  intro msg h
  rw [h0] at h
  exact Except.noConfusion h

/-- Claim C2, amended: `get_learning_path` performs no cycle detection and
never reports a "not a DAG" condition: whenever every edge target is a
declared node id it returns `Except.ok` with whatever (possibly shorter)
path the Kahn loop accumulated — on the cyclic two-node graph the empty
path, and on a graph whose edge has an undeclared source a silently
truncated path.  Only an edge whose target is not a declared node id
surfaces, as the `KeyError` raised while building the in-degree table
(modelled by the `Except.error` branch). -/
theorem claim_C2_amended :
    (∀ (nodes : List String) (edges : List (String × String)),
      (∀ e ∈ edges, e.2 ∈ dedupFirst nodes) →
      ∃ path, get_learning_path nodes edges = Except.ok path) ∧
    get_learning_path ["A", "B"] [("A", "B"), ("B", "A")] = Except.ok [] ∧
    get_learning_path ["A", "B"] [("Z", "B")] = Except.ok ["A"] ∧
    get_learning_path ["A"] [("A", "Z")]
      = Except.error "KeyError: edge target is not a declared node id" := by
  refine ⟨?_, rfl, rfl, rfl⟩
  intro nodes edges hcond
  unfold get_learning_path
  rw [if_pos hcond]
  exact ⟨_, rfl⟩

/-- Witness for claim C2 (amended) at a concrete input: a two-node graph
with a declared edge target gets an `Except.ok` result. -/
theorem claim_C2_amended_witness :
    ∃ path, get_learning_path ["X", "Y"] [("X", "Y")] = Except.ok path :=
  claim_C2_amended.1 ["X", "Y"] [("X", "Y")] (by decide)

end AstraMentor
